import Mathlib


/-!
Verification of the index-and-search backend of the `cheru` launcher.

The Rust sources under `src-tauri/src` are shallowly embedded below.
Filesystem access (`canonicalize`, `read_dir`, existence tests, plist
parsing) and the external `nucleo` fuzzy scorer are abstracted as fields
of an explicit `FS` record or as function parameters; everything the
repository itself computes (tokenizing, validation logic, index
construction, sorting, deduplication) is translated directly from the
Rust code.  Rust's stable `sort_by` is modelled by a stable insertion
sort, which agrees with every stable sort for a total preorder
comparator.  Machine strings are modelled as Lean `String` values with
all primitive operations re-implemented over the underlying character
lists so that every definition evaluates by kernel reduction.
-/

/-! ## Character-list string primitives (models of Rust `str` operations) -/

/-- Model of Rust `str::starts_with`: the haystack begins with the needle. -/
def beginsWith : List Char → List Char → Bool
  | _, [] => true
  | [], _ :: _ => false
  | a :: as, b :: bs => a == b && beginsWith as bs

/-- Model of Rust `str::ends_with` via reversal. -/
def finishesWith (hay post : List Char) : Bool :=
  beginsWith hay.reverse post.reverse

/-- Model of Rust `str::contains` for a literal needle. -/
def hasSub (sub : List Char) : List Char → Bool
  | [] => beginsWith [] sub
  | c :: cs => beginsWith (c :: cs) sub || hasSub sub cs

/-- String-level wrapper of `beginsWith`. -/
def strStarts (s p : String) : Bool := beginsWith s.data p.data

/-- String-level wrapper of `finishesWith`. -/
def strEnds (s p : String) : Bool := finishesWith s.data p.data

/-- String-level wrapper of `hasSub`. -/
def strHas (s p : String) : Bool := hasSub p.data s.data

/-- Model of Rust `char::to_lowercase`+`String::to_lowercase` on char data
(ASCII lowering, the part the comparator semantics depend on). -/
def lowerData (s : String) : List Char := s.data.map Char.toLower

/-- Lexicographic non-strict order on character lists by code point,
the comparison Rust `Ord for String` induces. -/
def lexLe : List Char → List Char → Bool
  | [], _ => true
  | _ :: _, [] => false
  | a :: as, b :: bs =>
    if a.toNat < b.toNat then true
    else if b.toNat < a.toNat then false
    else lexLe as bs

/-- Strict lexicographic order on character lists by code point. -/
def lexLt : List Char → List Char → Bool
  | _, [] => false
  | [], _ :: _ => true
  | a :: as, b :: bs =>
    if a.toNat < b.toNat then true
    else if b.toNat < a.toNat then false
    else lexLt as bs

/-! ## Whitespace tokenizing (model of Rust `str::split_whitespace`) -/

/-- Accumulator-based splitter: `acc` is the current word, reversed.
Produces the list of maximal whitespace-free nonempty words. -/
def wsTokensAux : List Char → List Char → List (List Char)
  | [], acc => if acc.isEmpty then [] else [acc.reverse]
  | c :: cs, acc =>
    if c.isWhitespace then
      if acc.isEmpty then wsTokensAux cs [] else acc.reverse :: wsTokensAux cs []
    else wsTokensAux cs (c :: acc)

/-- Model of Rust `str::split_whitespace().collect()`. -/
def wsTokens (s : List Char) : List (List Char) := wsTokensAux s []

/-- Model of `Vec<&str>::join(" ")`: interleave single spaces. -/
def joinSp : List (List Char) → List Char
  | [] => []
  | [t] => t
  | t :: u :: ts => t ++ ' ' :: joinSp (u :: ts)

/-- Embedding of `strip_field_codes` (commands.rs): split the exec line on
whitespace, drop the tokens that begin with a percent sign, rejoin with
single spaces. -/
def strip_field_codes (s : String) : String :=
  ⟨joinSp ((wsTokens s.data).filter (fun t => !(beginsWith t ['%'])))⟩

/-! ## Stable insertion sort (model of Rust stable `slice::sort_by`) -/

/-- Insert `a` into `l`, stopping at the first element `b` with
`le a b = true`; inserting after equals makes the sort stable. -/
def insertLe (le : α → α → Bool) (a : α) : List α → List α
  | [] => [a]
  | b :: bs => if le a b then a :: b :: bs else b :: insertLe le a bs

/-- Stable insertion sort by the boolean relation `le`.  For a total
preorder comparator this is extensionally the unique stable sort, hence
agrees with Rust's `sort_by`. -/
def sortLe (le : α → α → Bool) : List α → List α
  | [] => []
  | a :: as => insertLe le a (sortLe le as)

/-! ## Data model (indexer/mod.rs) -/

/-- Embedding of `ResultType` (indexer/mod.rs).  The `File` variant is the
one `commands.rs` references as `ResultType::File` for content-search
results and the browse ordering. -/
inductive ResultType
  | App
  | Folder
  | Image
  | System
  | File
deriving DecidableEq, Repr

/-- Embedding of `AppEntry` (indexer/mod.rs). -/
structure AppEntry where
  name : String
  exec : String
  icon : Option String
  description : Option String
  result_type : ResultType
deriving DecidableEq, Repr

/-- Embedding of `AppResult` (commands.rs), the wire mirror of `AppEntry`. -/
structure AppResult where
  name : String
  exec : String
  icon : Option String
  description : Option String
  result_type : ResultType
deriving DecidableEq, Repr

/-- Embedding of `impl From<&AppEntry> for AppResult`. -/
def toResult (e : AppEntry) : AppResult :=
  { name := e.name, exec := e.exec, icon := e.icon
    description := e.description, result_type := e.result_type }

/-! ## Fuzzy matcher (matcher.rs) -/

/-- Model of Rust `iter().enumerate()` starting at `n`. -/
def enumFrom : Nat → List α → List (Nat × α)
  | _, [] => []
  | n, a :: as => (n, a) :: enumFrom (n + 1) as

/-- Indices paired with elements, the image of `.iter().enumerate()`. -/
def enumIdx (l : List α) : List (Nat × α) := enumFrom 0 l

/-- The comparator `|a, b| b.1.cmp(&a.1)` used in `FuzzyMatcher::search`:
as the non-strict order of a stable sort it keeps `x` before `y`
exactly when the comparator does not answer `Greater`, i.e. descending
by score. -/
def scoreDescLe (x y : Nat × Nat) : Bool := y.2 ≤ x.2

/-- Embedding of `FuzzyMatcher::search` (matcher.rs).  The `nucleo`
scorer, including its internal scratch state and the atom built with
`CaseMatching::Smart`/`Normalization::Smart`, is abstracted as the
function `score : query → name → Option score`; the repository's own
logic — the empty-query passthrough, the enumerate/filter of scoreless
entries, and the stable descending sort — is translated directly. -/
def FuzzyMatcher.search (score : String → String → Option Nat)
    (query : String) (apps : List AppEntry) : List Nat :=
  if query.data = [] then
    List.range apps.length
  else
    (sortLe scoreDescLe
      ((enumIdx apps).filterMap
        (fun p => (score query p.2.name).map (fun s => (p.1, s))))).map Prod.fst

/-! ## Command layer (commands.rs) -/

/-- Embedding of `CommandError` (commands.rs). -/
inductive CommandError
  | LaunchError (msg : String)
  | WindowError (msg : String)
deriving DecidableEq, Repr

/-- A process-spawn request: the program handed to `Command::new` plus its
arguments.  Rejected inputs never produce one. -/
structure Spawned where
  prog : String
  args : List String
deriving DecidableEq, Repr

/-- One `read_dir` entry: its file name and whether the path is a
directory or a regular file (after following symlinks, as Rust
`Path::is_dir` / `Path::is_file` do; both are false for a broken link). -/
structure DirEnt where
  name : String
  isDir : Bool
  isFile : Bool
deriving DecidableEq, Repr

/-- An abstract filesystem world: everything the commands and indexers
observe through the OS.  `canonicalize` and `readDir` return the OS
error text on failure; `parseBundle` abstracts `parse_app_bundle`
(plist reading); `score` abstracts the `nucleo` scorer that a freshly
constructed `FuzzyMatcher` uses inside `browse_directory`. -/
structure FS where
  canonicalize : String → Except String String
  home : Option String
  pathExists : String → Bool
  isDirAt : String → Bool
  readDir : String → Except String (List DirEnt)
  parseBundle : String → Option AppEntry
  score : String → String → Option Nat

/-- The fixed allow-list array in `validate_exec_path`. -/
def allowedRoots : List String :=
  ["/Applications", "/System/Applications", "/usr/bin", "/usr/local/bin", "/opt"]

/-- The `is_allowed` test of `validate_exec_path`: the canonical string
raw-string starts with one of the allow-list roots, or with
`home/Applications`. -/
def execAllowed (fs : FS) (canonical : String) : Bool :=
  allowedRoots.any (fun p => strStarts canonical p) ||
    (match fs.home with
     | some h => strStarts canonical (h ++ "/Applications")
     | none => false)

/-- Embedding of `validate_exec_path` (commands.rs): require an absolute
path, canonicalize it, then apply `execAllowed`. -/
def validate_exec_path (fs : FS) (exec : String) : Except CommandError Unit :=
  if !(strStarts exec "/") then
    .error (.LaunchError "Exec path must be absolute")
  else
    match fs.canonicalize exec with
    | .error e => .error (.LaunchError ("Cannot resolve path: " ++ e))
    | .ok canonical =>
      if execAllowed fs canonical then
        .ok ()
      else
        .error (.LaunchError ("Path not in allowed locations: " ++ canonical))

/-- Embedding of `launch_app` (commands.rs), macOS configuration: strip
field codes, route bundle-looking targets through the gate whole, and
otherwise validate the first whitespace token before spawning it with
the remaining tokens. -/
def launch_app (fs : FS) (exec0 : String) : Except CommandError Spawned :=
  let exec := strip_field_codes exec0
  if strEnds exec ".app" || strHas exec ".app/" then
    match validate_exec_path fs exec with
    | .error e => .error e
    | .ok _ => .ok { prog := "open", args := ["-a", exec] }
  else
    match wsTokens exec.data with
    | [] => .error (.LaunchError "Empty exec command")
    | t :: ts =>
      match validate_exec_path fs ⟨t⟩ with
      | .error e => .error e
      | .ok _ => .ok { prog := ⟨t⟩, args := ts.map (fun u => (⟨u⟩ : String)) }

/-- Rust `Path::starts_with`, which matches whole path components:
`c` equals `h` or extends it past a separator. -/
def underPath (h c : String) : Bool := c == h || strStarts c (h ++ "/")

/-- Embedding of `open_path` (commands.rs): absolute, existing,
canonicalizable, and component-wise under the home directory; then the
canonical path is handed to the platform opener. -/
def open_path (fs : FS) (path : String) : Except CommandError Spawned :=
  if !(strStarts path "/") then
    .error (.LaunchError "Path must be absolute")
  else if !(fs.pathExists path) then
    .error (.LaunchError "Path does not exist")
  else
    match fs.canonicalize path with
    | .error e => .error (.LaunchError ("Cannot resolve path: " ++ e))
    | .ok canonical =>
      match fs.home with
      | none => .error (.LaunchError "Cannot determine home directory")
      | some home =>
        if !(underPath home canonical) then
          .error (.LaunchError "Can only open paths under home directory")
        else
          .ok { prog := "open", args := [canonical] }

/-- Model of Rust `Path::extension` on a file name: the segment after the
last dot, absent when there is no dot or the only dot is leading.
The name is processed reversed, accumulating the candidate extension. -/
def extRev : List Char → List Char → Option (List Char)
  | [], _ => none
  | '.' :: rest, acc => if rest.isEmpty then none else some acc
  | c :: rest, acc => extRev rest (c :: acc)

/-- Extension of a file name, as `Path::extension` computes it. -/
def extOf (name : List Char) : Option (List Char) := extRev name.reverse []

/-- The `IMAGE_EXTENSIONS` constant (indexer/mod.rs), also inlined in
`browse_directory`. -/
def IMAGE_EXTENSIONS : List String := ["png", "jpg", "jpeg", "gif", "webp", "svg"]

/-- The `type_ord` ranking inside `browse_directory`. -/
def type_ord : ResultType → Nat
  | .Folder => 0
  | .App => 1
  | .Image => 2
  | .System => 3
  | .File => 4

/-- The browse comparator: ascending `type_ord`, ties by case-insensitive
name — the non-strict order of the stable sort in `browse_directory`. -/
def browseLe (a b : AppEntry) : Bool :=
  type_ord a.result_type < type_ord b.result_type ||
    (type_ord a.result_type == type_ord b.result_type &&
      lexLe (lowerData a.name) (lowerData b.name))

/-- The per-entry classification loop body of `browse_directory`: skip
hidden names, folders (with `.app` bundles marked `App`), image files by
extension, everything else dropped. -/
def browseEntry (canonical : String) (d : DirEnt) : Option AppEntry :=
  if beginsWith d.name.data ['.'] then none
  else
    let entry_path := canonical ++ "/" ++ d.name
    if d.isDir then
      some { name := d.name, exec := entry_path, icon := none,
             description := some canonical,
             result_type := if strEnds d.name ".app" then .App else .Folder }
    else
      match extOf d.name.data with
      | none => none
      | some e =>
        let ext := e.map Char.toLower
        if IMAGE_EXTENSIONS.any (fun x => x.data == ext) then
          some { name := d.name, exec := entry_path, icon := some entry_path,
                 description := some canonical, result_type := .Image }
        else none

/-- Embedding of `browse_directory` (commands.rs): gate (absolute,
directory, canonicalizable, under home), then list immediate children as
folders and images, sorted type-then-name when the filter is empty and
fuzzy-filtered otherwise, capped at 50. -/
def browse_directory (fs : FS) (path filter : String) :
    Except CommandError (List AppResult) :=
  if !(strStarts path "/") then
    .error (.LaunchError "Path must be absolute")
  else if !(fs.isDirAt path) then
    .error (.LaunchError "Path is not a directory")
  else
    match fs.canonicalize path with
    | .error e => .error (.LaunchError ("Cannot resolve path: " ++ e))
    | .ok canonical =>
      match fs.home with
      | none => .error (.LaunchError "Cannot determine home directory")
      | some home =>
        if !(underPath home canonical) then
          .error (.LaunchError "Can only browse paths under home directory")
        else
          match fs.readDir canonical with
          | .error e => .error (.LaunchError ("Cannot read directory: " ++ e))
          | .ok des =>
            let entries := des.filterMap (browseEntry canonical)
            if filter.data = [] then
              .ok (((sortLe browseLe entries).take 50).map toResult)
            else
              .ok (((FuzzyMatcher.search fs.score filter entries).take 50).filterMap
                (fun idx => (entries.get? idx).map toResult))

/-- Embedding of `search_apps` (commands.rs): rank the application index
and materialize the first `MAX_RESULTS` hits; the in-bounds indexing
`&index[idx]` is rendered as `get?`. -/
def search_apps (score : String → String → Option Nat)
    (index : List AppEntry) (query : String) : List AppResult :=
  ((FuzzyMatcher.search score query index).take 50).filterMap
    (fun idx => (index.get? idx).map toResult)

/-! ## Filesystem tree indexer (indexer/mod.rs) -/

def MAX_FOLDERS : Nat := 500

def MAX_IMAGES : Nat := 2000

/-- The fixed deny-list of noise directory names pruned by both walks. -/
def noiseDirs : List String :=
  ["node_modules", "target", "build", "dist", "__pycache__", ".git",
   "Library", "Caches", "Containers", "HTTPStorages", "WebKit",
   "Saved Application State", "Application Support", "Application Scripts",
   "Group Containers", "GPUCache", "DerivedData", "Logs", "tmp", "var", "usr"]

/-- Whether a directory name is on the deny-list. -/
def isNoise (name : String) : Bool := noiseDirs.any (fun n => n == name)

/-- Embedding of `collect_folders` (indexer/mod.rs).  `fuel` is
`max_depth - depth`: the Rust guard `depth >= max_depth` is `fuel = 0`.
State is the accumulated entries plus the `seen` set of as-constructed
(not canonicalized) paths; the `for entry in entries` loop is a fold
that skips files, hidden names, deny-listed names and bundles, dedups on
the constructed path, records the entry and recurses into it. -/
def collect_folders (fs : FS) :
    Nat → String → List AppEntry × List String → List AppEntry × List String
  | 0, _, st => st
  | fuel + 1, dir, st =>
    if MAX_FOLDERS ≤ st.1.length then st
    else
      match fs.readDir dir with
      | .error _ => st
      | .ok des =>
        des.foldl (fun st d =>
          if !d.isDir then st
          else if beginsWith d.name.data ['.'] then st
          else if isNoise d.name then st
          else if strEnds d.name ".app" then st
          else
            let path := dir ++ "/" ++ d.name
            if st.2.contains path then st
            else
              collect_folders fs fuel path
                (st.1 ++ [{ name := d.name, exec := path, icon := none,
                            description := some dir, result_type := .Folder }],
                 path :: st.2)) st

/-- Embedding of `collect_images` (indexer/mod.rs), fuel-indexed like
`collect_folders`; hidden names are skipped, non-noise non-bundle
directories are recursed into unconditionally, and files with an image
extension not seen before are recorded. -/
def collect_images (fs : FS) :
    Nat → String → List AppEntry × List String → List AppEntry × List String
  | 0, _, st => st
  | fuel + 1, dir, st =>
    if MAX_IMAGES ≤ st.1.length then st
    else
      match fs.readDir dir with
      | .error _ => st
      | .ok des =>
        des.foldl (fun st d =>
          if beginsWith d.name.data ['.'] then st
          else if d.isDir then
            if isNoise d.name then st
            else if strEnds d.name ".app" then st
            else collect_images fs fuel (dir ++ "/" ++ d.name) st
          else if d.isFile then
            match extOf d.name.data with
            | none => st
            | some e =>
              let path := dir ++ "/" ++ d.name
              if IMAGE_EXTENSIONS.any (fun x => x.data == e.map Char.toLower)
                  && !(st.2.contains path) then
                (st.1 ++ [{ name := d.name, exec := path, icon := some path,
                            description := some dir, result_type := .Image }],
                 path :: st.2)
              else st
          else st) st

/-- `home.join(d)` after `home_dir().unwrap_or_default()`: joining onto
the empty default path keeps the name bare. -/
def homeJoin (fs : FS) (d : String) : String :=
  match fs.home with
  | some h => h ++ "/" ++ d
  | none => d

/-- The root list of `build_folder_index`. -/
def folderRootNames : List String :=
  ["Desktop", "Documents", "Downloads", "Pictures", "Music", "Movies",
   "Projects", "Developer", "Code"]

/-- The root list of `build_image_index`. -/
def imageRootNames : List String :=
  ["Desktop", "Documents", "Downloads", "Pictures", "Projects", "Developer", "Code"]

/-- The case-insensitive name comparator
`|a, b| a.name.to_lowercase().cmp(&b.name.to_lowercase())` used by every
index builder, as the non-strict order of a stable sort. -/
def nameLe (a b : AppEntry) : Bool := lexLe (lowerData a.name) (lowerData b.name)

/-- The `for dir in &search_dirs` loop of `build_folder_index`, with its
early `break` once the cap is reached. -/
def folderRootsLoop (fs : FS) : List String → List AppEntry → List String →
    List AppEntry × List String
  | [], folders, seen => (folders, seen)
  | dir :: rest, folders, seen =>
    if MAX_FOLDERS ≤ folders.length then (folders, seen)
    else
      let st := collect_folders fs 2 dir (folders, seen)
      folderRootsLoop fs rest st.1 st.2

/-- Embedding of `build_folder_index` (indexer/mod.rs): walk the roots to
depth 2, truncate to `MAX_FOLDERS`, then sort case-insensitively. -/
def build_folder_index (fs : FS) : List AppEntry :=
  let st := folderRootsLoop fs (folderRootNames.map (homeJoin fs)) [] []
  sortLe nameLe (st.1.take MAX_FOLDERS)

/-- The `for dir in &search_dirs` loop of `build_image_index`. -/
def imageRootsLoop (fs : FS) : List String → List AppEntry → List String →
    List AppEntry × List String
  | [], images, seen => (images, seen)
  | dir :: rest, images, seen =>
    if MAX_IMAGES ≤ images.length then (images, seen)
    else
      let st := collect_images fs 2 dir (images, seen)
      imageRootsLoop fs rest st.1 st.2

/-- Embedding of `build_image_index` (indexer/mod.rs). -/
def build_image_index (fs : FS) : List AppEntry :=
  let st := imageRootsLoop fs (imageRootNames.map (homeJoin fs)) [] []
  sortLe nameLe (st.1.take MAX_IMAGES)

/-! ## macOS application indexer (indexer/macos.rs) -/

/-- The bundle-root directories of `get_search_dirs` (indexer/macos.rs). -/
def appSearchDirs (fs : FS) : List String :=
  ["/Applications", "/System/Applications", "/System/Applications/Utilities"] ++
    (match fs.home with
     | some h => [h ++ "/Applications"]
     | none => [])

/-- The inner entry loop of `index_apps`: parse every `.app` bundle,
keeping the first bundle seen for each display name. -/
def appsLoop (fs : FS) (dir : String) : List DirEnt → List AppEntry →
    List String → List AppEntry × List String
  | [], apps, seen => (apps, seen)
  | d :: rest, apps, seen =>
    if extOf d.name.data == some ['a', 'p', 'p'] then
      match fs.parseBundle (dir ++ "/" ++ d.name) with
      | none => appsLoop fs dir rest apps seen
      | some app =>
        if seen.contains app.name then appsLoop fs dir rest apps seen
        else appsLoop fs dir rest (apps ++ [app]) (app.name :: seen)
    else appsLoop fs dir rest apps seen

/-- The outer directory loop of `index_apps`; unreadable directories are
skipped. -/
def appDirsLoop (fs : FS) : List String → List AppEntry → List String →
    List AppEntry × List String
  | [], apps, seen => (apps, seen)
  | dir :: rest, apps, seen =>
    match fs.readDir dir with
    | .error _ => appDirsLoop fs rest apps seen
    | .ok des =>
      let st := appsLoop fs dir des apps seen
      appDirsLoop fs rest st.1 st.2

/-- Embedding of `index_apps` (indexer/macos.rs): scan the bundle roots,
deduplicate by name (first occurrence wins), sort case-insensitively. -/
def index_apps (fs : FS) : List AppEntry :=
  sortLe nameLe (appDirsLoop fs (appSearchDirs fs) [] []).1

/-- Embedding of `convert_icons` (indexer/macos.rs): for each entry whose
icon ends in `.icns`, replace the icon by the result of the conversion
(`conv` abstracts `convert_icon_to_png`, which may fail with `None`);
every other field, and entries without an `.icns` icon, are untouched. -/
def iconStep (conv : String → String → Option String) (a : AppEntry) : AppEntry :=
  match a.icon with
  | some p => if strEnds p ".icns" then { a with icon := conv p a.name } else a
  | none => a

/-- The whole enrichment pass, mapping `iconStep` over the index. -/
def convert_icons (conv : String → String → Option String)
    (apps : List AppEntry) : List AppEntry :=
  apps.map (iconStep conv)

/-! ## C1: raw string-prefix allow-list check -/

/-- A filesystem world in which the directory `/usr/binfoo` exists as a
real (symlink-free) path, so canonicalization maps it to itself. -/
def fsC1 : FS where
  canonicalize := fun s =>
    if s == "/usr/binfoo" then .ok "/usr/binfoo" else .error "No such file or directory"
  home := some "/Users/u"
  pathExists := fun _ => false
  isDirAt := fun _ => false
  readDir := fun _ => .error "unreadable"
  parseBundle := fun _ => none
  score := fun _ _ => none

/-- A concrete demo entry for closed instances. -/
def entA : AppEntry :=
  { name := "Alpha", exec := "/usr/bin/alpha", icon := none,
    description := none, result_type := .App }

/-! ## C2: launch_app rejection cases -/

/-- The path `launch_app` submits to `validate_exec_path`: the whole
stripped command line for bundle-looking targets, otherwise its first
whitespace token; `none` when the stripped target has no tokens. -/
def launchPath (target : String) : Option String :=
  let exec := strip_field_codes target
  if strEnds exec ".app" || strHas exec ".app/" then some exec
  else
    match wsTokens exec.data with
    | [] => none
    | t :: _ => some ⟨t⟩

/-- A filesystem world where `/Applications/../etc/passwd` exists and
resolves (through `..`) to `/etc/passwd`, and nothing else resolves. -/
def fsC2 : FS where
  canonicalize := fun s =>
    if s == "/Applications/../etc/passwd" then .ok "/etc/passwd"
    else .error "No such file or directory"
  home := some "/Users/u"
  pathExists := fun _ => false
  isDirAt := fun _ => false
  readDir := fun _ => .error "unreadable"
  parseBundle := fun _ => none
  score := fun _ _ => none

/-! ## C3: open_path and browse_directory home-containment gate -/

/-- A filesystem world where `/Users/u/Docs` is an empty, real directory
under the home directory `/Users/u`. -/
def fsC3 : FS where
  canonicalize := fun s =>
    if s == "/Users/u/Docs" then .ok "/Users/u/Docs" else .error "No such file"
  home := some "/Users/u"
  pathExists := fun s => s == "/Users/u/Docs"
  isDirAt := fun s => s == "/Users/u/Docs"
  readDir := fun s => if s == "/Users/u/Docs" then .ok [] else .error "unreadable"
  parseBundle := fun _ => none
  score := fun _ _ => none

/-- The score the ranked search associates with index `i`: the scorer's
value on the `i`-th entry name (0 when absent, which on members of the
result never happens). -/
def scoreAt (score : String → String → Option Nat) (q : String)
    (apps : List AppEntry) (i : Nat) : Nat :=
  match apps.get? i with
  | some a => (score q a.name).getD 0
  | none => 0

/-- The scorer used in closed instances: only the name `Alpha` matches. -/
def scoreDemo : String → String → Option Nat :=
  fun _ name => if name == "Alpha" then some 5 else none

/-! ## C7: index ordering and caps -/

/-- A home directory with two sibling roots each containing a folder
named `Proj`: the built folder index then holds two entries with equal
(case-insensitively equal) names. -/
def fsC7 : FS where
  canonicalize := fun s => .ok s
  home := some "/h"
  pathExists := fun _ => true
  isDirAt := fun _ => true
  readDir := fun s =>
    if s == "/h/Desktop" then .ok [{ name := "Proj", isDir := true, isFile := false }]
    else if s == "/h/Documents" then .ok [{ name := "Proj", isDir := true, isFile := false }]
    else .error "unreadable"
  parseBundle := fun _ => none
  score := fun _ _ => none

/-! ## C6: dedup invariants of the walks -/

/-- The loop invariant of both walks: recorded `exec` paths are distinct
and all of them are in the `seen` set. -/
def dedupSt (st : List AppEntry × List String) : Prop :=
  (st.1.map (fun e => e.exec)).Nodup ∧ ∀ e ∈ st.1, e.exec ∈ st.2

/-- The body of the `for entry in entries` loop of `collect_folders`,
named for reasoning; `collect_folders` folds it over the listing. -/
def folderStep (fs : FS) (fuel : Nat) (dir : String)
    (st : List AppEntry × List String) (d : DirEnt) :
    List AppEntry × List String :=
  if !d.isDir then st
  else if beginsWith d.name.data ['.'] then st
  else if isNoise d.name then st
  else if strEnds d.name ".app" then st
  else
    let path := dir ++ "/" ++ d.name
    if st.2.contains path then st
    else
      collect_folders fs fuel path
        (st.1 ++ [{ name := d.name, exec := path, icon := none,
                    description := some dir, result_type := .Folder }],
         path :: st.2)

/-- The body of the `for entry in entries` loop of `collect_images`. -/
def imageStep (fs : FS) (fuel : Nat) (dir : String)
    (st : List AppEntry × List String) (d : DirEnt) :
    List AppEntry × List String :=
  if beginsWith d.name.data ['.'] then st
  else if d.isDir then
    if isNoise d.name then st
    else if strEnds d.name ".app" then st
    else collect_images fs fuel (dir ++ "/" ++ d.name) st
  else if d.isFile then
    match extOf d.name.data with
    | none => st
    | some e =>
      let path := dir ++ "/" ++ d.name
      if IMAGE_EXTENSIONS.any (fun x => x.data == e.map Char.toLower)
          && !(st.2.contains path) then
        (st.1 ++ [{ name := d.name, exec := path, icon := some path,
                    description := some dir, result_type := .Image }],
         path :: st.2)
      else st
  else st

/-- The invariant of the application indexer loops: recorded names are
distinct and all of them are in the `seen` set. -/
def dedupNamesSt (st : List AppEntry × List String) : Prop :=
  (st.1.map (fun e => e.name)).Nodup ∧ ∀ e ∈ st.1, e.name ∈ st.2

/-- A home directory in which `Desktop/Stuff` is a symlink to
`Documents/Stuff`: the two constructed paths differ, but both
canonicalize to `/h/Documents/Stuff`. -/
def fsC6 : FS where
  canonicalize := fun s =>
    if s == "/h/Desktop/Stuff" then .ok "/h/Documents/Stuff" else .ok s
  home := some "/h"
  pathExists := fun _ => true
  isDirAt := fun _ => true
  readDir := fun s =>
    if s == "/h/Desktop" then .ok [{ name := "Stuff", isDir := true, isFile := false }]
    else if s == "/h/Documents" then .ok [{ name := "Stuff", isDir := true, isFile := false }]
    else .error "unreadable"
  parseBundle := fun _ => none
  score := fun _ _ => none

theorem insertLe_perm (le : α → α → Bool) (a : α) (l : List α) :
    (insertLe le a l).Perm (a :: l) := by
  induction l with
  | nil => simp [insertLe]
  | cons b bs ih =>
    by_cases h : le a b
    · simp [insertLe, h]
    · simp only [insertLe, h, Bool.false_eq_true, if_false]
      exact (ih.cons b).trans (List.Perm.swap a b bs)

theorem sortLe_perm (le : α → α → Bool) (l : List α) :
    (sortLe le l).Perm l := by
  induction l with
  | nil => simp [sortLe]
  | cons a as ih =>
    exact (insertLe_perm le a (sortLe le as)).trans (ih.cons a)

theorem mem_sortLe (le : α → α → Bool) (l : List α) (a : α) :
    a ∈ sortLe le l ↔ a ∈ l :=
  (sortLe_perm le l).mem_iff

theorem length_sortLe (le : α → α → Bool) (l : List α) :
    (sortLe le l).length = l.length :=
  (sortLe_perm le l).length_eq

theorem nodup_sortLe (le : α → α → Bool) (l : List α) (h : l.Nodup) :
    (sortLe le l).Nodup :=
  ((sortLe_perm le l).symm.nodup h)

theorem insertLe_pairwise (le : α → α → Bool)
    (htot : ∀ x y, le x y || le y x)
    (htrans : ∀ x y z, le x y = true → le y z = true → le x z = true)
    (a : α) (l : List α) (h : l.Pairwise (fun x y => le x y = true)) :
    (insertLe le a l).Pairwise (fun x y => le x y = true) := by
  induction l with
  | nil => simp [insertLe]
  | cons b bs ih =>
    rcases h with _ | ⟨hb, hbs⟩
    by_cases hab : le a b
    · simp only [insertLe, hab, if_true]
      refine List.Pairwise.cons ?_ (List.Pairwise.cons hb hbs)
      intro x hx
      obtain rfl | hx := List.mem_cons.mp hx
      · exact hab
      · exact htrans a b x hab (hb x hx)
    · simp only [insertLe, hab, Bool.false_eq_true, if_false]
      refine List.Pairwise.cons ?_ (ih hbs)
      intro x hx
      rw [(insertLe_perm le a bs).mem_iff] at hx
      obtain rfl | hx := List.mem_cons.mp hx
      · have := htot x b
        simp only [hab, Bool.false_or] at this
        exact this
      · exact hb x hx

theorem sortLe_pairwise (le : α → α → Bool)
    (htot : ∀ x y, le x y || le y x)
    (htrans : ∀ x y z, le x y = true → le y z = true → le x z = true)
    (l : List α) :
    (sortLe le l).Pairwise (fun x y => le x y = true) := by
  induction l with
  | nil => simp [sortLe]
  | cons a as ih => exact insertLe_pairwise le htot htrans a (sortLe le as) ih

/-! ## Order and string lemmas -/

theorem lexLe_total (x y : List Char) : lexLe x y || lexLe y x := by
  induction x generalizing y with
  | nil => simp [lexLe]
  | cons a as ih =>
    cases y with
    | nil => simp [lexLe]
    | cons b bs =>
      rcases Nat.lt_trichotomy a.toNat b.toNat with h | h | h
      · simp [lexLe, h, Nat.lt_asymm h]
      · simp only [lexLe, h, Nat.lt_irrefl, if_false]
        exact ih bs
      · simp [lexLe, h, Nat.lt_asymm h]

theorem lexLe_trans (x y z : List Char)
    (hxy : lexLe x y = true) (hyz : lexLe y z = true) : lexLe x z = true := by
  induction x generalizing y z with
  | nil => simp [lexLe]
  | cons a as ih =>
    cases y with
    | nil => simp [lexLe] at hxy
    | cons b bs =>
      cases z with
      | nil => simp [lexLe] at hyz
      | cons c cs =>
        simp only [lexLe] at hxy hyz ⊢
        split at hxy
        case isTrue hab =>
          split at hyz
          case isTrue hbc =>
            rw [if_pos (Nat.lt_trans hab hbc)]
          case isFalse hbc =>
            split at hyz
            case isTrue => cases hyz
            case isFalse hcb =>
              have hac : a.toNat < c.toNat := by omega
              rw [if_pos hac]
        case isFalse hab =>
          split at hxy
          case isTrue => cases hxy
          case isFalse hba =>
            split at hyz
            case isTrue hbc =>
              have hac : a.toNat < c.toNat := by omega
              rw [if_pos hac]
            case isFalse hbc =>
              split at hyz
              case isTrue => cases hyz
              case isFalse hcb =>
                have h1 : ¬ a.toNat < c.toNat := by omega
                have h2 : ¬ c.toNat < a.toNat := by omega
                rw [if_neg h1, if_neg h2]
                exact ih bs cs hxy hyz

theorem nameLe_total (a b : AppEntry) : nameLe a b || nameLe b a :=
  lexLe_total _ _

theorem nameLe_trans (a b c : AppEntry)
    (h1 : nameLe a b = true) (h2 : nameLe b c = true) : nameLe a c = true :=
  lexLe_trans _ _ _ h1 h2

theorem beginsWith_refl (l : List Char) : beginsWith l l = true := by
  induction l with
  | nil => rfl
  | cons a as ih => simp [beginsWith, ih]

theorem hasSub_append_self (pre sub : List Char) :
    hasSub sub (pre ++ sub) = true := by
  induction pre with
  | nil =>
    cases sub with
    | nil => rfl
    | cons c cs => simp [hasSub, beginsWith_refl]
  | cons p ps ih => simp [hasSub, ih]

/-! ## Tokenizer lemmas -/

theorem wsTokensAux_wf : ∀ (cs acc : List Char),
    (∀ c ∈ acc, c.isWhitespace = false) →
    ∀ t ∈ wsTokensAux cs acc, t ≠ [] ∧ ∀ c ∈ t, c.isWhitespace = false := by
  intro cs
  induction cs with
  | nil =>
    intro acc hacc t ht
    simp only [wsTokensAux] at ht
    cases acc with
    | nil => simp at ht
    | cons a as =>
      simp only [List.isEmpty_cons, if_false] at ht
      rcases List.mem_singleton.mp ht with rfl
      refine ⟨by simp, ?_⟩
      intro c hc
      exact hacc c (List.mem_reverse.mp hc)
  | cons c cs ih =>
    intro acc hacc t ht
    simp only [wsTokensAux] at ht
    by_cases hw : c.isWhitespace
    · rw [if_pos hw] at ht
      cases acc with
      | nil =>
        simp only [List.isEmpty_nil, if_true] at ht
        exact ih [] (by intro x hx; cases hx) t ht
      | cons a as =>
        simp only [List.isEmpty_cons, if_false] at ht
        rcases List.mem_cons.mp ht with rfl | ht
        · refine ⟨by simp, ?_⟩
          intro x hx
          exact hacc x (List.mem_reverse.mp hx)
        · exact ih [] (by intro x hx; cases hx) t ht
    · rw [if_neg hw] at ht
      refine ih (c :: acc) ?_ t ht
      intro x hx
      rcases List.mem_cons.mp hx with rfl | hx
      · exact Bool.not_eq_true _ ▸ (by simpa using hw)
      · exact hacc x hx

theorem wsTokensAux_word : ∀ (t cs acc : List Char),
    (∀ c ∈ t, c.isWhitespace = false) →
    wsTokensAux (t ++ cs) acc = wsTokensAux cs (t.reverse ++ acc) := by
  intro t
  induction t with
  | nil => intro cs acc _; simp
  | cons c t ih =>
    intro cs acc hwf
    have hc : c.isWhitespace = false := hwf c (List.mem_cons_self c t)
    have hstep : wsTokensAux ((c :: t) ++ cs) acc = wsTokensAux (t ++ cs) (c :: acc) := by
      show wsTokensAux (c :: (t ++ cs)) acc = _
      simp only [wsTokensAux, hc, Bool.false_eq_true, if_false]
    rw [hstep, ih cs (c :: acc) (fun x hx => hwf x (List.mem_cons_of_mem c hx))]
    simp [List.reverse_cons, List.append_assoc]

theorem joinSp_tokens : ∀ ts : List (List Char),
    (∀ t ∈ ts, t ≠ [] ∧ ∀ c ∈ t, c.isWhitespace = false) →
    wsTokens (joinSp ts) = ts := by
  intro ts
  induction ts with
  | nil => intro _; rfl
  | cons t rest ih =>
    intro hwf
    obtain ⟨htne, htw⟩ := hwf t (List.mem_cons_self t rest)
    cases rest with
    | nil =>
      show wsTokensAux t [] = [t]
      rw [← List.append_nil t, wsTokensAux_word t [] [] htw]
      simp only [wsTokensAux, List.append_nil]
      rw [if_neg (by simpa using htne)]
      simp
    | cons u rest2 =>
      show wsTokensAux (t ++ ' ' :: joinSp (u :: rest2)) [] = t :: u :: rest2
      rw [wsTokensAux_word t _ [] htw]
      simp only [wsTokensAux, List.append_nil]
      have hsp : (' ' : Char).isWhitespace = true := by decide
      rw [if_pos hsp, if_neg (by simpa using htne)]
      have := ih (fun x hx => hwf x (List.mem_cons_of_mem t hx))
      simp only [wsTokens] at this
      rw [this]
      simp

/-- C8: `strip_field_codes` removes exactly the whitespace-delimited tokens
beginning with a percent sign, keeping the remaining tokens in order
joined by single spaces: tokenizing the output yields precisely the
filtered token list of the input, and the two spec examples evaluate as
stated (`"gimp %U --new-instance"` to `"gimp --new-instance"`,
`"nautilus"` unchanged). -/
theorem c8_strip_field_codes_removes_percent_tokens :
    (∀ s : String,
      wsTokens (strip_field_codes s).data =
        (wsTokens s.data).filter (fun t => !(beginsWith t ['%']))) ∧
    strip_field_codes "gimp %U --new-instance" = "gimp --new-instance" ∧
    strip_field_codes "nautilus" = "nautilus" := by
  refine ⟨?_, by decide, by decide⟩
  intro s
  show wsTokens (joinSp _) = _
  apply joinSp_tokens
  intro t ht
  exact wsTokensAux_wf s.data [] (by intro c hc; cases hc) t (List.mem_filter.mp ht).1

/-- C1: the launch allow-list check compares the canonical path against
each allowed root by raw string prefix, not by path-segment boundary:
the canonical path `/usr/binfoo` — a sibling of `/usr/bin` that lies
outside every allow-listed directory (including the user's
`~/Applications`) under segment-boundary containment (`underPath`) — is
accepted by `validate_exec_path`. -/
theorem c1_validate_accepts_sibling_of_allowed_root :
    validate_exec_path fsC1 "/usr/binfoo" = .ok () ∧
    (allowedRoots ++ ["/Users/u/Applications"]).all
      (fun d => !(underPath d "/usr/binfoo")) = true := by
  exact ⟨rfl, by decide⟩

/-! ## C4: empty query is the identity passthrough -/

/-- C4: for every scorer state and every non-empty entry slice,
`FuzzyMatcher::search` with the empty query returns all indices
`0..len` in input order, independent of the scorer. -/
theorem c4_empty_query_identity (score : String → String → Option Nat)
    (entries : List AppEntry) (h : entries ≠ []) :
    FuzzyMatcher.search score "" entries = List.range entries.length := by
  unfold FuzzyMatcher.search
  rw [if_pos rfl]

/-- Closed instance of `c4_empty_query_identity` at a one-entry slice. -/
theorem c4_empty_query_identity_witness :
    ([entA] ≠ ([] : List AppEntry)) ∧
    FuzzyMatcher.search (fun _ _ => none) "" [entA] = List.range 1 :=
  ⟨by decide, c4_empty_query_identity (fun _ _ => none) [entA] (by decide)⟩

/-! ## C9: icon enrichment is a frame on everything but `icon` -/

/-- C9: `convert_icons` preserves the number and order of entries and
every field except `icon` (stated positionally via `Forall₂`); an entry
is changed at all only when its icon ends in `.icns`, and then its icon
becomes exactly the conversion result (which is `none` on failure). -/
theorem c9_convert_icons_only_mutates_icons
    (conv : String → String → Option String) (apps : List AppEntry) :
    (convert_icons conv apps).length = apps.length ∧
    List.Forall₂ (fun a b =>
      b.name = a.name ∧ b.exec = a.exec ∧ b.description = a.description ∧
      b.result_type = a.result_type ∧
      ((match a.icon with
        | some p => strEnds p ".icns"
        | none => false) = false → b = a) ∧
      (∀ p, a.icon = some p → strEnds p ".icns" = true → b.icon = conv p a.name))
      apps (convert_icons conv apps) := by
  have hstep : ∀ a : AppEntry,
      (iconStep conv a).name = a.name ∧ (iconStep conv a).exec = a.exec ∧
      (iconStep conv a).description = a.description ∧
      (iconStep conv a).result_type = a.result_type ∧
      ((match a.icon with
        | some p => strEnds p ".icns"
        | none => false) = false → iconStep conv a = a) ∧
      (∀ p, a.icon = some p → strEnds p ".icns" = true →
        (iconStep conv a).icon = conv p a.name) := by
    intro a
    obtain ⟨n, ex, ic, de, rt⟩ := a
    cases ic with
    | none =>
      exact ⟨rfl, rfl, rfl, rfl, fun _ => rfl, fun p hp => by cases hp⟩
    | some p =>
      by_cases hi : strEnds p ".icns"
      · have hrepl : iconStep conv ⟨n, ex, some p, de, rt⟩ =
            ⟨n, ex, conv p n, de, rt⟩ := by
          simp [iconStep, hi]
        refine ⟨by rw [hrepl], by rw [hrepl], by rw [hrepl], by rw [hrepl], ?_, ?_⟩
        · intro hcon
          have hcon2 : strEnds p ".icns" = false := hcon
          simp [hcon2] at hi
        · intro q hq _
          cases hq
          rw [hrepl]
      · have hid : iconStep conv ⟨n, ex, some p, de, rt⟩ =
            ⟨n, ex, some p, de, rt⟩ := by
          simp [iconStep, hi]
        refine ⟨by rw [hid], by rw [hid], by rw [hid], by rw [hid],
          fun _ => hid, ?_⟩
        intro q hq hq2
        cases hq
        exact absurd hq2 hi
  constructor
  · simp [convert_icons]
  · induction apps with
    | nil => exact List.Forall₂.nil
    | cons a rest ih => exact List.Forall₂.cons (hstep a) ih

theorem validate_not_absolute (fs : FS) (p : String)
    (h : strStarts p "/" = false) :
    validate_exec_path fs p = .error (.LaunchError "Exec path must be absolute") := by
  simp [validate_exec_path, h]

theorem validate_canon_error (fs : FS) (p e : String)
    (h1 : strStarts p "/" = true) (h2 : fs.canonicalize p = .error e) :
    validate_exec_path fs p =
      .error (.LaunchError ("Cannot resolve path: " ++ e)) := by
  simp [validate_exec_path, h1, h2]

theorem validate_not_allowed (fs : FS) (p c : String)
    (h1 : strStarts p "/" = true) (h2 : fs.canonicalize p = .ok c)
    (h3 : execAllowed fs c = false) :
    validate_exec_path fs p =
      .error (.LaunchError ("Path not in allowed locations: " ++ c)) := by
  simp [validate_exec_path, h1, h2, h3]

theorem strHas_append_self (pre c : String) : strHas (pre ++ c) c = true := by
  obtain ⟨pl⟩ := pre
  obtain ⟨cl⟩ := c
  show hasSub cl (pl ++ cl) = true
  exact hasSub_append_self pl cl

/-- C2: `launch_app` rejects — returning a `LaunchError` and producing no
spawn request — whenever the target is empty after field-code stripping,
the validated path (first token or bundle path, `launchPath`) is
relative, its canonicalization fails, or the canonical path is outside
the allow-list; in the last case the error message carries the rejected
canonical path. -/
theorem c2_launch_app_rejects_invalid_targets (fs : FS) (target : String) :
    (launchPath target = none →
      launch_app fs target = .error (.LaunchError "Empty exec command")) ∧
    (∀ p, launchPath target = some p → strStarts p "/" = false →
      launch_app fs target = .error (.LaunchError "Exec path must be absolute")) ∧
    (∀ p e, launchPath target = some p → strStarts p "/" = true →
      fs.canonicalize p = .error e →
      launch_app fs target = .error (.LaunchError ("Cannot resolve path: " ++ e))) ∧
    (∀ p c, launchPath target = some p → strStarts p "/" = true →
      fs.canonicalize p = .ok c → execAllowed fs c = false →
      launch_app fs target =
        .error (.LaunchError ("Path not in allowed locations: " ++ c)) ∧
      strHas ("Path not in allowed locations: " ++ c) c = true) := by
  cases hApp : (strEnds (strip_field_codes target) ".app" ||
      strHas (strip_field_codes target) ".app/") with
  | true =>
    refine ⟨?_, ?_, ?_, ?_⟩
    · intro h
      simp [launchPath, hApp] at h
    · intro p hp hrel
      simp only [launchPath, hApp, if_true] at hp
      cases hp
      simp [launch_app, hApp, validate_not_absolute fs _ hrel]
    · intro p e hp habs hcanon
      simp only [launchPath, hApp, if_true] at hp
      cases hp
      simp [launch_app, hApp, validate_canon_error fs _ e habs hcanon]
    · intro p c hp habs hcanon hallow
      simp only [launchPath, hApp, if_true] at hp
      cases hp
      refine ⟨?_, strHas_append_self _ c⟩
      simp [launch_app, hApp, validate_not_allowed fs _ c habs hcanon hallow]
  | false =>
    cases htok : wsTokens (strip_field_codes target).data with
    | nil =>
      refine ⟨?_, ?_, ?_, ?_⟩
      · intro _
        simp [launch_app, hApp, htok]
      · intro p hp _
        simp [launchPath, hApp, htok] at hp
      · intro p e hp _ _
        simp [launchPath, hApp, htok] at hp
      · intro p c hp _ _ _
        simp [launchPath, hApp, htok] at hp
    | cons t ts =>
      refine ⟨?_, ?_, ?_, ?_⟩
      · intro h
        simp [launchPath, hApp, htok] at h
      · intro p hp hrel
        simp only [launchPath, hApp, Bool.false_eq_true, if_false, htok] at hp
        cases hp
        simp [launch_app, hApp, htok, validate_not_absolute fs _ hrel]
      · intro p e hp habs hcanon
        simp only [launchPath, hApp, Bool.false_eq_true, if_false, htok] at hp
        cases hp
        simp [launch_app, hApp, htok, validate_canon_error fs _ e habs hcanon]
      · intro p c hp habs hcanon hallow
        simp only [launchPath, hApp, Bool.false_eq_true, if_false, htok] at hp
        cases hp
        refine ⟨?_, strHas_append_self _ c⟩
        simp [launch_app, hApp, htok, validate_not_allowed fs _ c habs hcanon hallow]

/-- Closed instances of `c2_launch_app_rejects_invalid_targets`: the
relative target `relative/path` is rejected as non-absolute, and
`/Applications/../etc/passwd` — which canonicalizes to `/etc/passwd`,
outside every allow-listed root — is rejected with the canonical path in
the message. -/
theorem c2_launch_app_rejects_invalid_targets_witness :
    launch_app fsC2 "relative/path" =
      .error (.LaunchError "Exec path must be absolute") ∧
    launch_app fsC2 "/Applications/../etc/passwd" =
      .error (.LaunchError ("Path not in allowed locations: " ++ "/etc/passwd")) := by
  constructor
  · exact (c2_launch_app_rejects_invalid_targets fsC2 "relative/path").2.1
      "relative/path" (by rfl) (by rfl)
  · exact ((c2_launch_app_rejects_invalid_targets fsC2
      "/Applications/../etc/passwd").2.2.2 "/Applications/../etc/passwd"
      "/etc/passwd" (by rfl) (by rfl) (by rfl) (by rfl)).1

/-- C3: `open_path` and `browse_directory` succeed only when the input
path is absolute, exists (is a directory, for browse), canonicalizes,
and the canonical result is contained (component-wise) under the home
directory; every other input yields a `LaunchError` and, the result
being `error`, no spawn or listing. -/
theorem c3_open_and_browse_require_home_containment
    (fs : FS) (path filter : String) :
    (∀ sp, open_path fs path = .ok sp →
      strStarts path "/" = true ∧ fs.pathExists path = true ∧
      ∃ c h, fs.canonicalize path = .ok c ∧ fs.home = some h ∧
        underPath h c = true) ∧
    (∀ rs, browse_directory fs path filter = .ok rs →
      strStarts path "/" = true ∧ fs.isDirAt path = true ∧
      ∃ c h, fs.canonicalize path = .ok c ∧ fs.home = some h ∧
        underPath h c = true) := by
  constructor
  · intro sp hok
    unfold open_path at hok
    cases h1 : strStarts path "/" with
    | false => simp [h1] at hok
    | true =>
      rw [h1] at hok
      cases h2 : fs.pathExists path with
      | false => simp [h2] at hok
      | true =>
        rw [h2] at hok
        cases h3 : fs.canonicalize path with
        | error e => simp [h3] at hok
        | ok c =>
          rw [h3] at hok
          cases h4 : fs.home with
          | none => simp [h4] at hok
          | some hh =>
            rw [h4] at hok
            cases h5 : underPath hh c with
            | false => simp [h5] at hok
            | true => exact ⟨rfl, rfl, c, hh, rfl, rfl, h5⟩
  · intro rs hok
    unfold browse_directory at hok
    cases h1 : strStarts path "/" with
    | false => simp [h1] at hok
    | true =>
      rw [h1] at hok
      cases h2 : fs.isDirAt path with
      | false => simp [h2] at hok
      | true =>
        rw [h2] at hok
        cases h3 : fs.canonicalize path with
        | error e => simp [h3] at hok
        | ok c =>
          rw [h3] at hok
          cases h4 : fs.home with
          | none => simp [h4] at hok
          | some hh =>
            rw [h4] at hok
            cases h5 : underPath hh c with
            | false => simp [h5] at hok
            | true => exact ⟨rfl, rfl, c, hh, rfl, rfl, h5⟩

/-- Closed instance of the gate theorem at a world where both operations
succeed on `/Users/u/Docs`. -/
theorem c3_open_and_browse_require_home_containment_witness :
    (strStarts "/Users/u/Docs" "/" = true ∧
     fsC3.pathExists "/Users/u/Docs" = true ∧
     ∃ c h, fsC3.canonicalize "/Users/u/Docs" = .ok c ∧ fsC3.home = some h ∧
       underPath h c = true) ∧
    (strStarts "/Users/u/Docs" "/" = true ∧
     fsC3.isDirAt "/Users/u/Docs" = true ∧
     ∃ c h, fsC3.canonicalize "/Users/u/Docs" = .ok c ∧ fsC3.home = some h ∧
       underPath h c = true) :=
  ⟨(c3_open_and_browse_require_home_containment fsC3 "/Users/u/Docs" "").1
      { prog := "open", args := ["/Users/u/Docs"] } (by rfl),
   (c3_open_and_browse_require_home_containment fsC3 "/Users/u/Docs" "").2
      [] (by rfl)⟩

/-! ## Enumerate lemmas and the ranked-search claims -/

theorem mem_enumFrom_get : ∀ (l : List α) (n : Nat) (p : Nat × α),
    p ∈ enumFrom n l → n ≤ p.1 ∧ l.get? (p.1 - n) = some p.2 := by
  intro l
  induction l with
  | nil => intro n p hp; cases hp
  | cons x xs ih =>
    intro n p hp
    rcases List.mem_cons.mp hp with rfl | hp
    · simp
    · obtain ⟨hle, hget⟩ := ih (n + 1) p hp
      refine ⟨by omega, ?_⟩
      have hsub : p.1 - n = (p.1 - (n + 1)) + 1 := by omega
      rw [hsub]
      simpa using hget

theorem get_mem_enumFrom : ∀ (l : List α) (n k : Nat) (a : α),
    l.get? k = some a → (n + k, a) ∈ enumFrom n l := by
  intro l
  induction l with
  | nil => intro n k a h; cases h
  | cons x xs ih =>
    intro n k a h
    cases k with
    | zero =>
      cases h
      exact List.mem_cons_self _ _
    | succ k =>
      have := ih (n + 1) k a (by simpa using h)
      have harith : n + (k + 1) = (n + 1) + k := by omega
      rw [harith]
      exact List.mem_cons_of_mem _ this

theorem snd_mem_enumFrom : ∀ (l : List α) (n : Nat) (p : Nat × α),
    p ∈ enumFrom n l → p.2 ∈ l := by
  intro l
  induction l with
  | nil => intro n p hp; cases hp
  | cons x xs ih =>
    intro n p hp
    rcases List.mem_cons.mp hp with rfl | hp
    · exact List.mem_cons_self _ _
    · exact List.mem_cons_of_mem _ (ih (n + 1) p hp)

theorem nodup_fst_enumFrom : ∀ (l : List α) (n : Nat),
    ((enumFrom n l).map Prod.fst).Nodup := by
  intro l
  induction l with
  | nil => intro n; simp [enumFrom]
  | cons x xs ih =>
    intro n
    simp only [enumFrom, List.map_cons]
    refine List.Nodup.cons ?_ (ih (n + 1))
    intro hmem
    obtain ⟨p, hp, hfst⟩ := List.mem_map.mp hmem
    have := (mem_enumFrom_get xs (n + 1) p hp).1
    omega

theorem filterMap_fst_sublist {β γ : Type} (g : Nat × β → Option (Nat × γ))
    (hg : ∀ p y, g p = some y → y.1 = p.1) :
    ∀ l : List (Nat × β),
      ((List.filterMap g l).map Prod.fst).Sublist (l.map Prod.fst) := by
  intro l
  induction l with
  | nil => simp
  | cons p rest ih =>
    cases hgp : g p with
    | none =>
      simp only [List.filterMap_cons, hgp, List.map_cons]
      exact ih.cons p.1
    | some y =>
      simp only [List.filterMap_cons, hgp, List.map_cons]
      rw [hg p y hgp]
      exact ih.cons₂ p.1

theorem mem_scoredList (score : String → String → Option Nat)
    (q : String) (apps : List AppEntry) (i s : Nat) :
    ((i, s) ∈ (enumIdx apps).filterMap
        (fun p => (score q p.2.name).map (fun v => (p.1, v)))) ↔
      ∃ a, apps.get? i = some a ∧ score q a.name = some s := by
  constructor
  · intro h
    obtain ⟨p, hp, hmap⟩ := List.mem_filterMap.mp h
    obtain ⟨v, hv, heq⟩ := Option.map_eq_some'.mp hmap
    obtain ⟨h1, h2⟩ := Prod.mk.injEq .. ▸ heq
    obtain ⟨-, hget⟩ := mem_enumFrom_get apps 0 p hp
    refine ⟨p.2, ?_, ?_⟩
    · rw [← h1]
      simpa using hget
    · rw [← h2]
      exact hv
  · intro ⟨a, hget, hscore⟩
    apply List.mem_filterMap.mpr
    refine ⟨(i, a), ?_, ?_⟩
    · have := get_mem_enumFrom apps 0 i a hget
      simpa [enumIdx] using this
    · simp [hscore]

/-- C5: for a non-empty query, `FuzzyMatcher::search` returns exactly the
indices of entries to which the (smart-case, normalizing) scorer assigns
a score — scoreless entries are excluded entirely, so an unmatched query
yields `[]` — and the result is sorted by score descending. -/
theorem c5_nonempty_query_scored_and_sorted
    (score : String → String → Option Nat) (q : String)
    (apps : List AppEntry) (hq : q.data ≠ []) :
    (∀ i, i ∈ FuzzyMatcher.search score q apps ↔
      ∃ a, apps.get? i = some a ∧ (score q a.name).isSome = true) ∧
    List.Pairwise
      (fun i j => scoreAt score q apps j ≤ scoreAt score q apps i)
      (FuzzyMatcher.search score q apps) ∧
    ((∀ a ∈ apps, score q a.name = none) →
      FuzzyMatcher.search score q apps = []) := by
  refine ⟨?_, ?_, ?_⟩
  · intro i
    unfold FuzzyMatcher.search
    rw [if_neg hq]
    constructor
    · intro h
      obtain ⟨pr, hpr, rfl⟩ := List.mem_map.mp h
      have hmem := (mem_sortLe _ _ _).mp hpr
      obtain ⟨a, hget, hscore⟩ :=
        (mem_scoredList score q apps pr.1 pr.2).mp hmem
      exact ⟨a, hget, by rw [hscore]; rfl⟩
    · intro ⟨a, hget, hsome⟩
      obtain ⟨s, hs⟩ := Option.isSome_iff_exists.mp hsome
      apply List.mem_map.mpr
      refine ⟨(i, s), ?_, rfl⟩
      exact (mem_sortLe _ _ _).mpr
        ((mem_scoredList score q apps i s).mpr ⟨a, hget, hs⟩)
  · unfold FuzzyMatcher.search
    rw [if_neg hq]
    apply List.pairwise_map.mpr
    have hpair := sortLe_pairwise scoreDescLe
      (fun x y => by
        simp only [scoreDescLe, Bool.or_eq_true, decide_eq_true_eq]
        omega)
      (fun x y z h1 h2 => by
        simp only [scoreDescLe, decide_eq_true_eq] at h1 h2 ⊢
        omega)
      ((enumIdx apps).filterMap
        (fun p => (score q p.2.name).map (fun v => (p.1, v))))
    apply List.Pairwise.imp_of_mem ?_ hpair
    intro x y hx hy hr
    have hxy : y.2 ≤ x.2 := by simpa [scoreDescLe] using hr
    obtain ⟨a, hga, hsa⟩ :=
      (mem_scoredList score q apps x.1 x.2).mp ((mem_sortLe _ _ _).mp hx)
    obtain ⟨b, hgb, hsb⟩ :=
      (mem_scoredList score q apps y.1 y.2).mp ((mem_sortLe _ _ _).mp hy)
    show scoreAt score q apps y.1 ≤ scoreAt score q apps x.1
    unfold scoreAt
    rw [hga, hgb]
    show (score q b.name).getD 0 ≤ (score q a.name).getD 0
    rw [hsa, hsb]
    simpa using hxy
  · intro hnone
    unfold FuzzyMatcher.search
    rw [if_neg hq]
    have hS : (enumIdx apps).filterMap
        (fun p => (score q p.2.name).map (fun v => (p.1, v))) = [] := by
      apply List.filterMap_eq_nil_iff.mpr
      intro p hp
      rw [hnone p.2 (snd_mem_enumFrom apps 0 p hp)]
      rfl
    rw [hS]
    rfl

/-- Closed instance of `c5_nonempty_query_scored_and_sorted` at the query
`al` over the one-entry slice `[entA]`. -/
theorem c5_nonempty_query_scored_and_sorted_witness :
    ("al" : String).data ≠ [] ∧
    ((∀ i, i ∈ FuzzyMatcher.search scoreDemo "al" [entA] ↔
      ∃ a, [entA].get? i = some a ∧ (scoreDemo "al" a.name).isSome = true) ∧
    List.Pairwise
      (fun i j => scoreAt scoreDemo "al" [entA] j ≤ scoreAt scoreDemo "al" [entA] i)
      (FuzzyMatcher.search scoreDemo "al" [entA]) ∧
    ((∀ a ∈ [entA], scoreDemo "al" a.name = none) →
      FuzzyMatcher.search scoreDemo "al" [entA] = [])) :=
  ⟨by decide,
   c5_nonempty_query_scored_and_sorted scoreDemo "al" [entA] (by decide)⟩

/-- C10: every index returned by `FuzzyMatcher::search` is strictly below
the length of the entry slice, and the returned indices are pairwise
distinct — so the callers (`search_apps`, `search_folders`,
`search_images`, `browse_directory`), which index the slice with each
returned value, never go out of bounds and never repeat an entry. -/
theorem c10_search_indices_in_bounds_and_distinct
    (score : String → String → Option Nat) (q : String)
    (apps : List AppEntry) :
    (FuzzyMatcher.search score q apps).Nodup ∧
    ∀ i ∈ FuzzyMatcher.search score q apps, i < apps.length := by
  unfold FuzzyMatcher.search
  by_cases hq : q.data = []
  · rw [if_pos hq]
    exact ⟨List.nodup_range _, fun i h => List.mem_range.mp h⟩
  · rw [if_neg hq]
    constructor
    · have hperm := (sortLe_perm scoreDescLe
        ((enumIdx apps).filterMap
          (fun p => (score q p.2.name).map (fun v => (p.1, v))))).map Prod.fst
      apply hperm.symm.nodup
      have hsub := filterMap_fst_sublist
        (fun p : Nat × AppEntry => (score q p.2.name).map (fun v => (p.1, v)))
        (fun p y hy => by
          obtain ⟨v, _, heq⟩ := Option.map_eq_some'.mp hy
          rw [← heq])
        (enumIdx apps)
      exact hsub.nodup (nodup_fst_enumFrom apps 0)
    · intro i hi
      obtain ⟨pr, hpr, rfl⟩ := List.mem_map.mp hi
      obtain ⟨a, hget, -⟩ :=
        (mem_scoredList score q apps pr.1 pr.2).mp ((mem_sortLe _ _ _).mp hpr)
      by_contra hge
      rw [List.get?_eq_none.mpr (by omega)] at hget
      cases hget

/-- C7 counterexample: the folder index built over `fsC7` is not
STRICTLY sorted by case-insensitive name — it contains two entries both
named `Proj` (same-named folders under different roots), so sorting is
only non-strict. -/
theorem c7_counterexample_not_strictly_sorted :
    ¬ (build_folder_index fsC7).Pairwise
        (fun a b => lexLt (lowerData a.name) (lowerData b.name) = true) := by
  decide

/-- C7 (amended): every built index is sorted case-insensitively
ascending by name in the NON-STRICT sense (ties between equal
case-insensitive names are allowed and do occur), and the folder and
image indices are capped at `MAX_FOLDERS = 500` and `MAX_IMAGES = 2000`
entries. -/
theorem c7_indices_sorted_and_capped (fs : FS) :
    (index_apps fs).Pairwise (fun a b => nameLe a b = true) ∧
    (build_folder_index fs).Pairwise (fun a b => nameLe a b = true) ∧
    (build_folder_index fs).length ≤ MAX_FOLDERS ∧
    (build_image_index fs).Pairwise (fun a b => nameLe a b = true) ∧
    (build_image_index fs).length ≤ MAX_IMAGES := by
  refine ⟨?_, ?_, ?_, ?_, ?_⟩
  · exact sortLe_pairwise nameLe nameLe_total nameLe_trans _
  · exact sortLe_pairwise nameLe nameLe_total nameLe_trans _
  · show (sortLe nameLe _).length ≤ _
    rw [length_sortLe]
    exact List.length_take_le _ _
  · exact sortLe_pairwise nameLe nameLe_total nameLe_trans _
  · show (sortLe nameLe _).length ≤ _
    rw [length_sortLe]
    exact List.length_take_le _ _

theorem contains_false_not_mem [BEq α] [LawfulBEq α] {l : List α} {x : α}
    (h : l.contains x = false) : ¬ x ∈ l := by
  intro hx
  have h3 : l.contains x = true := List.elem_iff.mpr hx
  rw [h3] at h
  cases h

theorem collect_folders_succ (fs : FS) (fuel : Nat) (dir : String)
    (st : List AppEntry × List String) :
    collect_folders fs (fuel + 1) dir st =
      if MAX_FOLDERS ≤ st.1.length then st
      else
        match fs.readDir dir with
        | .error _ => st
        | .ok des => des.foldl (folderStep fs fuel dir) st := rfl

theorem dedupSt_push (st : List AppEntry × List String) (e : AppEntry)
    (h : dedupSt st) (hnotin : ¬ e.exec ∈ st.2) :
    dedupSt (st.1 ++ [e], e.exec :: st.2) := by
  constructor
  · rw [List.map_append]
    rw [List.nodup_append]
    refine ⟨h.1, List.nodup_singleton _, ?_⟩
    intro x hx
    obtain ⟨a, ha, rfl⟩ := List.mem_map.mp hx
    intro hmem
    have hfeq : a.exec = e.exec := by simpa using List.mem_singleton.mp hmem
    exact hnotin (by rw [← hfeq]; exact h.2 a ha)
  · intro a ha
    rcases List.mem_append.mp ha with ha | ha
    · exact List.mem_cons_of_mem _ (h.2 a ha)
    · rcases List.mem_singleton.mp ha with rfl
      exact List.mem_cons_self _ _

theorem folderStep_dedup (fs : FS) (fuel : Nat) (dir : String)
    (st : List AppEntry × List String) (d : DirEnt)
    (hcol : ∀ dir2 st2, dedupSt st2 →
      dedupSt (collect_folders fs fuel dir2 st2) ∧
      ∀ x ∈ st2.2, x ∈ (collect_folders fs fuel dir2 st2).2)
    (h : dedupSt st) :
    dedupSt (folderStep fs fuel dir st d) ∧
    ∀ x ∈ st.2, x ∈ (folderStep fs fuel dir st d).2 := by
  unfold folderStep
  by_cases h1 : (!d.isDir) = true
  · rw [if_pos h1]; exact ⟨h, fun x hx => hx⟩
  · rw [if_neg h1]
    by_cases h2 : beginsWith d.name.data ['.'] = true
    · rw [if_pos h2]; exact ⟨h, fun x hx => hx⟩
    · rw [if_neg h2]
      by_cases h3 : isNoise d.name = true
      · rw [if_pos h3]; exact ⟨h, fun x hx => hx⟩
      · rw [if_neg h3]
        by_cases h4 : strEnds d.name ".app" = true
        · rw [if_pos h4]; exact ⟨h, fun x hx => hx⟩
        · rw [if_neg h4]
          show dedupSt (if st.2.contains (dir ++ "/" ++ d.name) = true then st
            else collect_folders fs fuel (dir ++ "/" ++ d.name) _) ∧ _
          by_cases h5 : st.2.contains (dir ++ "/" ++ d.name) = true
          · rw [if_pos h5]; exact ⟨h, fun x hx => hx⟩
          · rw [if_neg h5]
            have h5f : st.2.contains (dir ++ "/" ++ d.name) = false := by
              simpa using h5
            have hnotin := contains_false_not_mem h5f
            obtain ⟨hd, hsub⟩ := hcol (dir ++ "/" ++ d.name) _
              (dedupSt_push st
                { name := d.name, exec := dir ++ "/" ++ d.name, icon := none,
                  description := some dir, result_type := .Folder } h hnotin)
            exact ⟨hd, fun x hx => hsub x (List.mem_cons_of_mem _ hx)⟩

theorem collect_folders_dedup (fs : FS) : ∀ (fuel : Nat) (dir : String)
    (st : List AppEntry × List String), dedupSt st →
    dedupSt (collect_folders fs fuel dir st) ∧
    ∀ x ∈ st.2, x ∈ (collect_folders fs fuel dir st).2 := by
  intro fuel
  induction fuel with
  | zero => intro dir st h; exact ⟨h, fun x hx => hx⟩
  | succ fuel ih =>
    intro dir st h
    rw [collect_folders_succ]
    by_cases hmax : MAX_FOLDERS ≤ st.1.length
    · rw [if_pos hmax]; exact ⟨h, fun x hx => hx⟩
    · rw [if_neg hmax]
      have hfold : ∀ (des : List DirEnt) (st2 : List AppEntry × List String),
          dedupSt st2 →
          dedupSt (des.foldl (folderStep fs fuel dir) st2) ∧
          ∀ x ∈ st2.2, x ∈ (des.foldl (folderStep fs fuel dir) st2).2 := by
        intro des
        induction des with
        | nil => intro st2 h2; exact ⟨h2, fun x hx => hx⟩
        | cons d rest ihd =>
          intro st2 h2
          rw [List.foldl_cons]
          obtain ⟨hd1, hd2⟩ := folderStep_dedup fs fuel dir st2 d ih h2
          obtain ⟨hr1, hr2⟩ := ihd (folderStep fs fuel dir st2 d) hd1
          exact ⟨hr1, fun x hx => hr2 x (hd2 x hx)⟩
      cases fs.readDir dir with
      | error e => exact ⟨h, fun x hx => hx⟩
      | ok des => exact hfold des st h

theorem collect_images_succ (fs : FS) (fuel : Nat) (dir : String)
    (st : List AppEntry × List String) :
    collect_images fs (fuel + 1) dir st =
      if MAX_IMAGES ≤ st.1.length then st
      else
        match fs.readDir dir with
        | .error _ => st
        | .ok des => des.foldl (imageStep fs fuel dir) st := rfl

theorem imageStep_dedup (fs : FS) (fuel : Nat) (dir : String)
    (st : List AppEntry × List String) (d : DirEnt)
    (hcol : ∀ dir2 st2, dedupSt st2 →
      dedupSt (collect_images fs fuel dir2 st2) ∧
      ∀ x ∈ st2.2, x ∈ (collect_images fs fuel dir2 st2).2)
    (h : dedupSt st) :
    dedupSt (imageStep fs fuel dir st d) ∧
    ∀ x ∈ st.2, x ∈ (imageStep fs fuel dir st d).2 := by
  unfold imageStep
  by_cases h1 : beginsWith d.name.data ['.'] = true
  · rw [if_pos h1]; exact ⟨h, fun x hx => hx⟩
  · rw [if_neg h1]
    by_cases h2 : d.isDir = true
    · rw [if_pos h2]
      by_cases h3 : isNoise d.name = true
      · rw [if_pos h3]; exact ⟨h, fun x hx => hx⟩
      · rw [if_neg h3]
        by_cases h4 : strEnds d.name ".app" = true
        · rw [if_pos h4]; exact ⟨h, fun x hx => hx⟩
        · rw [if_neg h4]
          exact hcol (dir ++ "/" ++ d.name) st h
    · rw [if_neg h2]
      by_cases h5 : d.isFile = true
      · rw [if_pos h5]
        cases hext : extOf d.name.data with
        | none => exact ⟨h, fun x hx => hx⟩
        | some e =>
          show dedupSt (if (IMAGE_EXTENSIONS.any (fun x => x.data == e.map Char.toLower)
              && !(st.2.contains (dir ++ "/" ++ d.name))) = true then
              (st.1 ++ [{ name := d.name, exec := dir ++ "/" ++ d.name,
                          icon := some (dir ++ "/" ++ d.name),
                          description := some dir, result_type := .Image }],
               (dir ++ "/" ++ d.name) :: st.2)
            else st) ∧
            ∀ x ∈ st.2, x ∈ (if (IMAGE_EXTENSIONS.any (fun x => x.data == e.map Char.toLower)
              && !(st.2.contains (dir ++ "/" ++ d.name))) = true then
              (st.1 ++ [{ name := d.name, exec := dir ++ "/" ++ d.name,
                          icon := some (dir ++ "/" ++ d.name),
                          description := some dir, result_type := .Image }],
               (dir ++ "/" ++ d.name) :: st.2)
            else st).2
          by_cases h6 : (IMAGE_EXTENSIONS.any (fun x => x.data == e.map Char.toLower)
              && !(st.2.contains (dir ++ "/" ++ d.name))) = true
          · rw [if_pos h6]
            obtain ⟨-, hnc⟩ := Bool.and_eq_true_iff.mp h6
            have hnc2 : st.2.contains (dir ++ "/" ++ d.name) = false := by
              simpa using hnc
            have hnotin := contains_false_not_mem hnc2
            refine ⟨dedupSt_push st
              { name := d.name, exec := dir ++ "/" ++ d.name,
                icon := some (dir ++ "/" ++ d.name),
                description := some dir, result_type := .Image } h hnotin, ?_⟩
            intro x hx
            exact List.mem_cons_of_mem _ hx
          · rw [if_neg h6]; exact ⟨h, fun x hx => hx⟩
      · rw [if_neg h5]; exact ⟨h, fun x hx => hx⟩

theorem collect_images_dedup (fs : FS) : ∀ (fuel : Nat) (dir : String)
    (st : List AppEntry × List String), dedupSt st →
    dedupSt (collect_images fs fuel dir st) ∧
    ∀ x ∈ st.2, x ∈ (collect_images fs fuel dir st).2 := by
  intro fuel
  induction fuel with
  | zero => intro dir st h; exact ⟨h, fun x hx => hx⟩
  | succ fuel ih =>
    intro dir st h
    rw [collect_images_succ]
    by_cases hmax : MAX_IMAGES ≤ st.1.length
    · rw [if_pos hmax]; exact ⟨h, fun x hx => hx⟩
    · rw [if_neg hmax]
      have hfold : ∀ (des : List DirEnt) (st2 : List AppEntry × List String),
          dedupSt st2 →
          dedupSt (des.foldl (imageStep fs fuel dir) st2) ∧
          ∀ x ∈ st2.2, x ∈ (des.foldl (imageStep fs fuel dir) st2).2 := by
        intro des
        induction des with
        | nil => intro st2 h2; exact ⟨h2, fun x hx => hx⟩
        | cons d rest ihd =>
          intro st2 h2
          rw [List.foldl_cons]
          obtain ⟨hd1, hd2⟩ := imageStep_dedup fs fuel dir st2 d ih h2
          obtain ⟨hr1, hr2⟩ := ihd (imageStep fs fuel dir st2 d) hd1
          exact ⟨hr1, fun x hx => hr2 x (hd2 x hx)⟩
      cases fs.readDir dir with
      | error e => exact ⟨h, fun x hx => hx⟩
      | ok des => exact hfold des st h

theorem dedupNamesSt_push (apps : List AppEntry) (seen : List String)
    (app : AppEntry) (h : dedupNamesSt (apps, seen))
    (hnotin : ¬ app.name ∈ seen) :
    dedupNamesSt (apps ++ [app], app.name :: seen) := by
  constructor
  · rw [List.map_append, List.nodup_append]
    refine ⟨h.1, List.nodup_singleton _, ?_⟩
    intro x hx
    obtain ⟨a, ha, rfl⟩ := List.mem_map.mp hx
    intro hmem
    have hfeq : a.name = app.name := by simpa using List.mem_singleton.mp hmem
    exact hnotin (by rw [← hfeq]; exact h.2 a ha)
  · intro a ha
    rcases List.mem_append.mp ha with ha | ha
    · exact List.mem_cons_of_mem _ (h.2 a ha)
    · rcases List.mem_singleton.mp ha with rfl
      exact List.mem_cons_self _ _

theorem appsLoop_dedup (fs : FS) (dir : String) :
    ∀ (des : List DirEnt) (apps : List AppEntry) (seen : List String),
    dedupNamesSt (apps, seen) →
    dedupNamesSt (appsLoop fs dir des apps seen) ∧
    ∀ x ∈ seen, x ∈ (appsLoop fs dir des apps seen).2 := by
  intro des
  induction des with
  | nil => intro apps seen h; exact ⟨h, fun x hx => hx⟩
  | cons d rest ihd =>
    intro apps seen h
    have heq : appsLoop fs dir (d :: rest) apps seen =
        (if (extOf d.name.data == some ['a', 'p', 'p']) = true then
          match fs.parseBundle (dir ++ "/" ++ d.name) with
          | none => appsLoop fs dir rest apps seen
          | some app =>
            if seen.contains app.name = true then appsLoop fs dir rest apps seen
            else appsLoop fs dir rest (apps ++ [app]) (app.name :: seen)
        else appsLoop fs dir rest apps seen) := rfl
    rw [heq]
    by_cases h1 : (extOf d.name.data == some ['a', 'p', 'p']) = true
    · rw [if_pos h1]
      cases hp : fs.parseBundle (dir ++ "/" ++ d.name) with
      | none => exact ihd apps seen h
      | some app =>
        show dedupNamesSt (if seen.contains app.name = true then
            appsLoop fs dir rest apps seen
          else appsLoop fs dir rest (apps ++ [app]) (app.name :: seen)) ∧
          ∀ x ∈ seen, x ∈ (if seen.contains app.name = true then
            appsLoop fs dir rest apps seen
          else appsLoop fs dir rest (apps ++ [app]) (app.name :: seen)).2
        by_cases h2 : seen.contains app.name = true
        · rw [if_pos h2]
          exact ihd apps seen h
        · rw [if_neg h2]
          have h2f : seen.contains app.name = false := by simpa using h2
          obtain ⟨hr1, hr2⟩ := ihd (apps ++ [app]) (app.name :: seen)
            (dedupNamesSt_push apps seen app h (contains_false_not_mem h2f))
          exact ⟨hr1, fun x hx => hr2 x (List.mem_cons_of_mem _ hx)⟩
    · rw [if_neg h1]
      exact ihd apps seen h

theorem appDirsLoop_dedup (fs : FS) :
    ∀ (dirs : List String) (apps : List AppEntry) (seen : List String),
    dedupNamesSt (apps, seen) →
    dedupNamesSt (appDirsLoop fs dirs apps seen) := by
  intro dirs
  induction dirs with
  | nil => intro apps seen h; exact h
  | cons dir rest ihd =>
    intro apps seen h
    show dedupNamesSt (match fs.readDir dir with
      | .error _ => appDirsLoop fs rest apps seen
      | .ok des =>
        appDirsLoop fs rest (appsLoop fs dir des apps seen).1
          (appsLoop fs dir des apps seen).2)
    cases fs.readDir dir with
    | error e => exact ihd apps seen h
    | ok des =>
      obtain ⟨h1, -⟩ := appsLoop_dedup fs dir des apps seen h
      exact ihd _ _ h1

theorem folderRootsLoop_dedup (fs : FS) :
    ∀ (dirs : List String) (folders : List AppEntry) (seen : List String),
    dedupSt (folders, seen) →
    dedupSt (folderRootsLoop fs dirs folders seen) := by
  intro dirs
  induction dirs with
  | nil => intro folders seen h; exact h
  | cons dir rest ihd =>
    intro folders seen h
    show dedupSt (if MAX_FOLDERS ≤ folders.length then (folders, seen)
      else folderRootsLoop fs rest
        (collect_folders fs 2 dir (folders, seen)).1
        (collect_folders fs 2 dir (folders, seen)).2)
    by_cases hmax : MAX_FOLDERS ≤ folders.length
    · rw [if_pos hmax]; exact h
    · rw [if_neg hmax]
      obtain ⟨h1, -⟩ := collect_folders_dedup fs 2 dir (folders, seen) h
      exact ihd _ _ h1

theorem imageRootsLoop_dedup (fs : FS) :
    ∀ (dirs : List String) (images : List AppEntry) (seen : List String),
    dedupSt (images, seen) →
    dedupSt (imageRootsLoop fs dirs images seen) := by
  intro dirs
  induction dirs with
  | nil => intro images seen h; exact h
  | cons dir rest ihd =>
    intro images seen h
    show dedupSt (if MAX_IMAGES ≤ images.length then (images, seen)
      else imageRootsLoop fs rest
        (collect_images fs 2 dir (images, seen)).1
        (collect_images fs 2 dir (images, seen)).2)
    by_cases hmax : MAX_IMAGES ≤ images.length
    · rw [if_pos hmax]; exact h
    · rw [if_neg hmax]
      obtain ⟨h1, -⟩ := collect_images_dedup fs 2 dir (images, seen) h
      exact ihd _ _ h1

/-- C6 counterexample: the walk deduplicates on the as-constructed path,
not the canonicalized one, so the same physical directory reached via a
symlink route is emitted twice: over `fsC6` the folder index contains
two entries whose `exec` paths canonicalize to the same path. -/
theorem c6_counterexample_canonical_duplicate :
    ¬ ((build_folder_index fsC6).map
        (fun e => (fsC6.canonicalize e.exec).toOption)).Nodup := by
  decide

/-- C6 (amended): in every built Folder or Image index no two entries
share their as-constructed (un-canonicalized) absolute path — the `seen`
set holds raw constructed paths, so uniqueness by canonical path fails
under symlinks — and in the built Application index no two entries share
a name (first occurrence wins). -/
theorem c6_index_key_uniqueness (fs : FS) :
    ((build_folder_index fs).map (fun e => e.exec)).Nodup ∧
    ((build_image_index fs).map (fun e => e.exec)).Nodup ∧
    ((index_apps fs).map (fun e => e.name)).Nodup := by
  refine ⟨?_, ?_, ?_⟩
  · have hst := folderRootsLoop_dedup fs (folderRootNames.map (homeJoin fs)) [] []
      ⟨List.nodup_nil, by intro e he; cases he⟩
    show ((sortLe nameLe
      ((folderRootsLoop fs (folderRootNames.map (homeJoin fs)) [] []).1.take
        MAX_FOLDERS)).map (fun e => e.exec)).Nodup
    apply ((sortLe_perm nameLe _).map (fun e => e.exec)).symm.nodup
    rw [List.map_take]
    exact (List.take_sublist _ _).nodup hst.1
  · have hst := imageRootsLoop_dedup fs (imageRootNames.map (homeJoin fs)) [] []
      ⟨List.nodup_nil, by intro e he; cases he⟩
    show ((sortLe nameLe
      ((imageRootsLoop fs (imageRootNames.map (homeJoin fs)) [] []).1.take
        MAX_IMAGES)).map (fun e => e.exec)).Nodup
    apply ((sortLe_perm nameLe _).map (fun e => e.exec)).symm.nodup
    rw [List.map_take]
    exact (List.take_sublist _ _).nodup hst.1
  · have hst := appDirsLoop_dedup fs (appSearchDirs fs) [] []
      ⟨List.nodup_nil, by intro e he; cases he⟩
    show ((sortLe nameLe (appDirsLoop fs (appSearchDirs fs) [] []).1).map
      (fun e => e.name)).Nodup
    apply ((sortLe_perm nameLe _).map (fun e => e.name)).symm.nodup
    exact hst.1

